import Mathlib

/-!
Verification of the truffleHog secret scanner (src/truffleHog/truffleHog.py)
against its natural-language specification.

The Python source is shallowly embedded: text is modelled as `List Char` (or
`String` at the interfaces), compiled regular-expression objects supplied by
callers are modelled as abstract matcher functions, the two concrete path
patterns appearing in the spec's examples are modelled by a small literal
regex matcher faithful to Python's anchored `re.match`, floating-point
arithmetic on entropies is modelled over `ℝ`, and the commit-history walker
of `find_strings` is modelled as a state machine producing the trace of
Diff-Worker invocations.
-/

namespace TruffleHog

/-! ## Python string helpers -/

/-- Python truthiness of an optional string: `None` and `""` are falsy. -/
def pyTruthy : Option String → Bool
  | none => false
  | some s => !(s == "")

/-- Python `str` applied to an optional commit object: `str(None) = "None"`,
and `str` of a GitPython commit is its hex sha. Used by `find_strings` to
build the input of the `sha3_512` diff digest. -/
def pyStr : Option String → String
  | none => "None"
  | some s => s

/-- Split a character list at every character satisfying `p`, keeping empty
pieces, as Python's `str.split(sep)` does for a one-character separator. -/
def splitOnPred (p : Char → Bool) : List Char → List (List Char)
  | [] => [[]]
  | c :: rest =>
    match splitOnPred p rest with
    | [] => [[]]
    | w :: ws => if p c then [] :: w :: ws else (c :: w) :: ws

/-- Python's `str.split("\n")` as used by `find_entropy`. -/
def splitLines (s : List Char) : List (List Char) :=
  splitOnPred (fun c => c == '\n') s

/-- Python's `str.isspace` characters relevant to `str.split()` with no
arguments: space, tab, newline, carriage return, vertical tab, form feed. -/
def pyIsSpace (c : Char) : Bool :=
  c == ' ' || c == '\t' || c == '\n' || c == '\r' || c == '\x0b' || c == '\x0c'

/-- Python's no-argument `line.split()`: split on whitespace and drop the
empty pieces (equivalent to splitting on maximal whitespace runs). -/
def pySplitWords (line : List Char) : List (List Char) :=
  (splitOnPred pyIsSpace line).filter (fun w => !w.isEmpty)

/-- Replacement worker for `pyReplace`, structurally recursing on a fuel
bound; fuel `s.length` suffices because each step consumes at least one
character of `s` when `old` is nonempty. -/
def pyReplaceAux (old new : List Char) : Nat → List Char → List Char
  | _, [] => []
  | 0, s => s
  | fuel + 1, c :: rest =>
    if old.isPrefixOf (c :: rest) then
      new ++ pyReplaceAux old new fuel ((c :: rest).drop old.length)
    else
      c :: pyReplaceAux old new fuel rest

/-- Python's `s.replace(old, new)`: replace every non-overlapping occurrence
of `old` in `s`, left to right. For empty `old`, Python inserts `new` before
every character and at the end. -/
def pyReplace (s old new : List Char) : List Char :=
  if old.isEmpty then new ++ s.flatMap (fun c => c :: new)
  else pyReplaceAux old new s.length s

/-- String version of `pyReplace`. -/
def pyReplaceS (s old new : String) : String :=
  ⟨pyReplace s.data old.data new.data⟩

/-! ## A literal-pattern fragment of Python regular expressions

The spec's path-filter examples use the concrete patterns `"^config/"` and
`"\.txt$"`, both of which are plain literal sequences with optional `^` and
`$` anchors. `reMatch` models Python's `re.match` on that fragment:
`re.match` is always anchored at position 0 (so a leading `^` is redundant),
and `$` accepts the end of the string or a position just before one final
newline. -/

/-- A token of a literal-only regular expression: one literal character
(`\.` in a pattern is the literal `.`). -/
inductive RTok where
  | lit (c : Char)
deriving DecidableEq

/-- Does a token match one character? -/
def rtokMatches : RTok → Char → Bool
  | RTok.lit a, c => a == c

/-- Match a literal token list at the start of `s`, returning the remaining
characters on success. -/
def matchToksFrom : List RTok → List Char → Option (List Char)
  | [], s => some s
  | _ :: _, [] => none
  | t :: ts, c :: cs => if rtokMatches t c then matchToksFrom ts cs else none

/-- A compiled pattern of the literal fragment: optional `^`, literal body,
optional `$`. -/
structure PyRegex where
  caret : Bool
  toks : List RTok
  dollar : Bool

/-- Python `re.match(pattern, s)` viewed as a Boolean, for literal patterns:
anchored at position 0; a trailing `$` requires the match to end at the end
of the string (or just before one final newline). -/
def reMatch (r : PyRegex) (s : List Char) : Bool :=
  match matchToksFrom r.toks s with
  | none => false
  | some rest => !r.dollar || rest.isEmpty || rest == ['\n']

/-- Literal tokens of a pattern body. -/
def litToks (s : String) : List RTok := s.data.map RTok.lit

/-- The compiled inclusion pattern `"^config/"` of the spec's example. -/
def inclusionRegexConfig : PyRegex := ⟨true, litToks "config/", false⟩

/-- The compiled exclusion pattern `"\.txt$"` of the spec's example. -/
def exclusionRegexTxt : PyRegex := ⟨false, litToks ".txt", true⟩

/-! ## Path filter (`path_included`, truffleHog.py lines 315-338) -/

/-- Effective path of a changed file, from `path_included` and the finding
dictionaries: `blob.b_path if blob.b_path else blob.a_path` with Python
truthiness (`None` and `""` are falsy). -/
def blobPathOf (bPath aPath : Option String) : Option String :=
  match bPath with
  | some p => if p = "" then aPath else some p
  | none => aPath

/-- Embedding of `path_included`, with the caller-compiled regular
expressions abstracted as matcher functions (the source applies
`p.match(path)` to each compiled pattern `p`). `None` pattern arguments
behave like `[]` (both are falsy in Python). -/
def path_included (path : List Char)
    (include_patterns exclude_patterns : List (List Char → Bool)) : Bool :=
  if !include_patterns.isEmpty && !include_patterns.any (fun p => p path) then false
  else if !exclude_patterns.isEmpty && exclude_patterns.any (fun p => p path) then false
  else true

/-- The path-filter rule as worded by the spec (section 4.3): if inclusion
patterns are non-empty and none match the path, exclude; otherwise, if any
exclusion pattern matches, exclude; otherwise include. -/
def path_filter_spec (path : List Char)
    (include_patterns exclude_patterns : List (List Char → Bool)) : Bool :=
  if !include_patterns.isEmpty && include_patterns.all (fun p => !p path) then false
  else if exclude_patterns.any (fun p => p path) then false
  else true

/-! ## Entropy detector (truffleHog.py lines 115-153, 216-255) -/

/-- The base64 alphabet constant `BASE64_CHARS` of the source
(65 characters: `A`-`Z`, `a`-`z`, `0`-`9`, `+`, `/`, `=`). -/
def BASE64_CHARS : List Char :=
  "ABCDEFGHIJKLMNOPQRSTUVWXYZabcdefghijklmnopqrstuvwxyz0123456789+/=".data

/-- The hex alphabet constant `HEX_CHARS` of the source (22 characters:
digits and both cases of `a`-`f`). -/
def HEX_CHARS : List Char := "1234567890abcdefABCDEF".data

/-- The loop body of `shannon_entropy`: the contribution of the alphabet
character `x`, namely `-p_x * log2 p_x` when `p_x = data.count(x) /
len(data)` is positive, else nothing. -/
noncomputable def entropyTerm (data : List Char) (x : Char) : ℝ :=
  if (0 : ℝ) < (data.count x : ℝ) / (data.length : ℝ) then
    -((data.count x : ℝ) / (data.length : ℝ) *
      Real.logb 2 ((data.count x : ℝ) / (data.length : ℝ)))
  else 0

/-- Embedding of `shannon_entropy(data, iterator)`: sum `entropyTerm` over
the iterated alphabet; an empty `data` gives `0`. The source's
floating-point arithmetic is modelled over `ℝ`. -/
noncomputable def shannon_entropy (data iterator : List Char) : ℝ :=
  if data.isEmpty then 0
  else (iterator.map (entropyTerm data)).sum

/-- One step of the character-run loop of `get_strings_of_set`: the state is
`(count, letters, strings)`; a character of the set extends the current run,
any other character closes it, keeping it only when `count > threshold`. -/
def gsosStep (char_set : List Char) (threshold : Nat)
    (st : Nat × List Char × List (List Char)) (c : Char) :
    Nat × List Char × List (List Char) :=
  if c ∈ char_set then (st.1 + 1, st.2.1 ++ [c], st.2.2)
  else if threshold < st.1 then (0, [], st.2.2 ++ [st.2.1])
  else (0, [], st.2.2)

/-- Embedding of `get_strings_of_set(word, char_set, threshold)`: collect
the maximal runs of characters of `char_set` inside `word` whose length
strictly exceeds `threshold` (the source's default threshold is 20, which
every call site uses). -/
def get_strings_of_set (word char_set : List Char) (threshold : Nat) :
    List (List Char) :=
  let st := word.foldl (gsosStep char_set threshold) (0, [], [])
  if threshold < st.1 then st.2.2 ++ [st.2.1] else st.2.2

/-- Python's substring containment `pat in s` over character lists. -/
def listContains (pat : List Char) : List Char → Bool
  | [] => pat.isEmpty
  | c :: rest => pat.isPrefixOf (c :: rest) || listContains pat rest

/-- Embedding of `is_no_trufflehog_line`: `"no_trufflehog" in line`. -/
def is_no_trufflehog_line (line : List Char) : Bool :=
  listContains "no_trufflehog".data line

/-- Embedding of `is_exclude_line(line, entropy_regex_exclusions)`: the line
contains the suppression marker, or some caller-supplied exclusion regular
expression (modelled as a matcher function, the source applies
`regex_exclusion.search(line)`) matches it. -/
def is_exclude_line (line : List Char)
    (entropy_regex_exclusions : List (List Char → Bool)) : Bool :=
  is_no_trufflehog_line line ||
    entropy_regex_exclusions.any (fun r => r line)

/-- Embedding of the `strings_found` accumulation of `find_entropy`
(truffleHog.py lines 229-255): per line of the diff — skipping lines
accepted by `is_exclude_line` — and per whitespace-delimited word, append
every base64-alphabet run whose entropy exceeds 4.5 and then every
hex-alphabet run whose entropy exceeds 3. The highlighted `print_diff`
string and the metadata dictionary built from `strings_found` are not
needed by any claim and are omitted. -/
noncomputable def find_entropy_strings (printable_diff : List Char)
    (entropy_regex_exclusions : List (List Char → Bool)) : List (List Char) :=
  (splitLines printable_diff).foldl (fun strings_found line =>
    if is_exclude_line line entropy_regex_exclusions then strings_found
    else
      (pySplitWords line).foldl (fun sf word =>
        let sf2 := (get_strings_of_set word BASE64_CHARS 20).foldl
          (fun acc s =>
            if (4.5 : ℝ) < shannon_entropy s BASE64_CHARS then acc ++ [s] else acc) sf
        (get_strings_of_set word HEX_CHARS 20).foldl
          (fun acc s =>
            if (3 : ℝ) < shannon_entropy s HEX_CHARS then acc ++ [s] else acc) sf2)
        strings_found) []

/-- The entropy strings one single line contributes, per the spec's reading
of step 3-5 of the Entropy Detector: for each word of the line, the
qualifying base64 runs with entropy above 4.5 followed by the qualifying
hex runs with entropy above 3. -/
noncomputable def line_entropy_strings (line : List Char) : List (List Char) :=
  (pySplitWords line).flatMap (fun word =>
    (get_strings_of_set word BASE64_CHARS 20).filter
      (fun s => decide ((4.5 : ℝ) < shannon_entropy s BASE64_CHARS)) ++
    (get_strings_of_set word HEX_CHARS 20).filter
      (fun s => decide ((3 : ℝ) < shannon_entropy s HEX_CHARS)))

/-! ## Pattern detector (`regex_check`, truffleHog.py lines 258-277) -/

/-- The `bcolors.WARNING` escape prefix used for highlighting. -/
def bcolorsWARNING : String := "\x1b[93m"

/-- The `bcolors.ENDC` escape suffix. -/
def bcolorsENDC : String := "\x1b[0m"

/-- The `bcolors.FAIL` escape prefix used in fatal error messages. -/
def bcolorsFAIL : String := "\x1b[91m"

/-- The `bcolors.BOLD` escape prefix. -/
def bcolorsBOLD : String := "\x1b[1m"

/-- A Git diff blob as the detectors see it: optional pre- and post-image
paths and the patch text (the source's `blob.diff.decode('utf-8',
errors='replace')` is modelled as this already-decoded text). -/
structure Blob where
  a_path : Option String
  b_path : Option String
  diff : String
deriving DecidableEq

/-- One finding dictionary produced by `regex_check`. -/
structure RegexFinding where
  date : String
  path : Option String
  branch : String
  commit : String
  diff : String
  strings_found : List String
  print_diff : Option String
  reason : String
  commit_hash : String
deriving DecidableEq

/-- One iteration of the `for key in secret_regexes` loop of `regex_check`.
The state carries the running `found_diff` (initially `None`, reassigned by
the inner `for found_string in found_strings` loop — note that the source
computes `printable_diff.replace(printable_diff, WARNING + found_string +
ENDC)`, whose first argument is the whole diff text) and the accumulated
`regex_matches`. A pattern is a `findall`-style matcher function. -/
def regexCheckStep (printable_diff commit_time branch_name
    prev_commit_message prev_commit_hexsha : String) (blob : Blob)
    (st : Option String × List RegexFinding)
    (kv : String × (String → List String)) :
    Option String × List RegexFinding :=
  let found_strings := kv.2 printable_diff
  let found_diff := found_strings.foldl
    (fun _ found_string =>
      some (pyReplaceS printable_diff printable_diff
        (bcolorsWARNING ++ found_string ++ bcolorsENDC))) st.1
  if found_strings.isEmpty then (found_diff, st.2)
  else
    (found_diff, st.2 ++
      [{ date := commit_time, path := blobPathOf blob.b_path blob.a_path,
         branch := branch_name, commit := prev_commit_message,
         diff := blob.diff, strings_found := found_strings,
         print_diff := found_diff, reason := kv.1,
         commit_hash := prev_commit_hexsha }])

/-- Embedding of `regex_check`: `custom_regexes=None` is replaced by the
empty mapping, an empty mapping is falsy in Python and selects the
module-global `regexes` (passed here explicitly as `global_regexes`), and
each pattern with at least one `findall` hit produces one finding. -/
def regex_check (printable_diff commit_time branch_name
    prev_commit_message prev_commit_hexsha : String) (blob : Blob)
    (global_regexes : List (String × (String → List String)))
    (custom_regexes : Option (List (String × (String → List String)))) :
    List RegexFinding :=
  let custom := custom_regexes.getD []
  let secret_regexes := if custom.isEmpty then global_regexes else custom
  (secret_regexes.foldl
    (regexCheckStep printable_diff commit_time branch_name
      prev_commit_message prev_commit_hexsha blob) (none, [])).2

/-! ## History walker (`find_strings`, truffleHog.py lines 341-408)

The walker is modelled as a state machine over commit hex shas. Scanning a
diff (computing it with `create_patch=True` and handing it to
`diff_worker`) is recorded as a `ScanEvent`; the claims about the walker
concern only which diffs are scanned, not the findings inside them. The
`sha3_512` Diff Identity digest is modelled injectively by its input string
`str(prev_commit) + str(curr_commit)`. -/

/-- A remote branch: its name and the commits `repo.iter_commits` yields for
it, newest first. -/
structure Branch where
  name : String
  commits : List String
deriving DecidableEq

/-- One Diff-Worker invocation performed by the walker: an in-loop diff
`prev_commit.diff(curr_commit)` or the terminal
`curr_commit.diff(NULL_TREE)` of a branch. -/
inductive ScanEvent where
  | pairScan (prev curr : String)
  | rootScan (curr : String)
deriving DecidableEq

/-- The Diff Identity the source digests for an in-loop diff: the
concatenation `str(prev_commit) + str(curr_commit)` fed to `sha3_512`
(collisions of the ideal digest are exactly collisions of its input). -/
def diff_hash_input (prev : Option String) (curr : String) : String :=
  pyStr prev ++ curr

/-- The per-branch loop state of `find_strings`: the `since_commit_reached`
flag, the sliding `prev_commit`, the loop variable `curr_commit` (holding
the last iterated commit after the loop), the session-wide
`already_searched` set (kept as an insertion-ordered list) and the trace of
Diff-Worker invocations so far. -/
structure WalkSt where
  sinceReached : Bool
  prev : Option String
  curr : Option String
  searched : List String
  events : List ScanEvent

/-- One iteration of `for curr_commit in repo.iter_commits(...)`: record
reaching `since_commit`, suppress detection while in the reached state (for
a truthy `since_commit`), skip the first commit (nothing to diff against),
skip a diff whose identity is in `already_searched`, and otherwise scan the
pair and record its identity. -/
def processCommit (since_commit : Option String) (st : WalkSt) (c : String) :
    WalkSt :=
  let reached := st.sinceReached || (some c == since_commit)
  if pyTruthy since_commit && reached then
    { st with sinceReached := reached, prev := some c, curr := some c }
  else
    let dh := diff_hash_input st.prev c
    if st.prev.isNone then
      { st with sinceReached := reached, prev := some c, curr := some c }
    else if dh ∈ st.searched then
      { st with sinceReached := reached, prev := some c, curr := some c }
    else
      { sinceReached := reached, prev := some c, curr := some c,
        searched := st.searched ++ [dh],
        events := st.events ++ [ScanEvent.pairScan (pyStr st.prev) c] }

/-- Process one branch of `find_strings`: reset the per-branch state, fold
the commit loop over the first `max_depth` commits, then unconditionally
perform the terminal `curr_commit.diff(NULL_TREE)` scan. A branch that
yielded no commits leaves `curr_commit` unbound (`None`), on which the
source's `curr_commit.diff(NULL_TREE)` raises `AttributeError`; that crash
is modelled as `none`. The returned pair is the updated session state
(`already_searched`, trace). -/
def processBranch (since_commit : Option String) (max_depth : Nat)
    (searched : List String) (events : List ScanEvent) (b : Branch) :
    Option (List String × List ScanEvent) :=
  let st0 : WalkSt :=
    { sinceReached := false, prev := none, curr := none,
      searched := searched, events := events }
  let st := (b.commits.take max_depth).foldl (processCommit since_commit) st0
  match st.curr with
  | none => none
  | some c => some (st.searched, st.events ++ [ScanEvent.rootScan c])

/-- Fold `processBranch` over the branch list, threading the session-wide
`already_searched` set and the scan trace, propagating a crash. -/
def runBranches (since_commit : Option String) (max_depth : Nat) :
    List Branch → List String → List ScanEvent →
    Option (List String × List ScanEvent)
  | [], searched, events => some (searched, events)
  | b :: bs, searched, events =>
    match processBranch since_commit max_depth searched events b with
    | none => none
    | some (searched', events') =>
      runBranches since_commit max_depth bs searched' events'

/-- The trace of Diff-Worker invocations `find_strings` performs on a
repository whose fetched remote branches are `branches`, in order. -/
def find_strings_trace (branches : List Branch)
    (since_commit : Option String) (max_depth : Nat) :
    Option (List ScanEvent) :=
  (runBranches since_commit max_depth branches [] []).map (fun p => p.2)

/-- The Diff Identity an in-loop scan event digested; terminal empty-tree
scans never digest one. -/
def scanEventHash : ScanEvent → Option String
  | ScanEvent.pairScan p c => some (p ++ c)
  | ScanEvent.rootScan _ => none

/-! ## Process exit contract (`main` and `clone_git_repo`,
truffleHog.py lines 96-101 and 167-176) -/

/-- The outcome of `Repo.clone_from(git_url, project_path)`: success, or a
`GitCommandError` carrying its `stderr` text. -/
inductive CloneOutcome where
  | success (path : String)
  | gitError (stderr : String)
deriving DecidableEq

/-- Embedding of `clone_git_repo`: on a `GitCommandError` the source calls
`exit(...)` — modelled as `Except.error` with the printed message — choosing
the message by `re.search("repository.* *.does not exist", e.stderr)`,
modelled abstractly by the Boolean classifier `stderr_matches_missing`. -/
def clone_git_repo (outcome : CloneOutcome)
    (stderr_matches_missing : String → Bool) : Except String String :=
  match outcome with
  | CloneOutcome.success path => Except.ok path
  | CloneOutcome.gitError stderr =>
    if stderr_matches_missing stderr then
      Except.error (bcolorsFAIL ++ "Error: Git repository does not exist" ++ bcolorsENDC)
    else
      Except.error (bcolorsFAIL ++ "Error: Git command error: \n" ++ bcolorsENDC ++ stderr)

/-- The exit decision at the end of `main`: `sys.exit(1)` when
`output["found_issues"]` (the list of persisted finding locations, one per
finding, appended by `handle_results`) is non-empty, else `sys.exit(0)`. -/
def main_exit (found_issues : List String) : Nat :=
  if found_issues.isEmpty then 0 else 1

/-- The exit status of a whole run of `main`: cloning is attempted first
(for a remote URL), aborting on failure before any scan result exists; a
completed scan — abstracted as the function `scan` from the cloned project
path to the accumulated `found_issues` list — exits through `main_exit`. -/
def main_result (outcome : CloneOutcome)
    (stderr_matches_missing : String → Bool)
    (scan : String → List String) : Except String Nat :=
  match clone_git_repo outcome stderr_matches_missing with
  | Except.error e => Except.error e
  | Except.ok path => Except.ok (main_exit (scan path))

/-! ## Theorems for the claims -/

/-- C3 (counterexample): the claim says `path_included` on `"config/a.txt"`
with inclusion `["^config/"]` and exclusion `["\.txt$"]` returns excluded
(`false`); on the code it returns included (`true`), because the source
applies patterns with Python's `re.match`, which anchors at the start of the
path, and `"\.txt$"` does not match `"config/a.txt"` from position 0. -/
theorem C3_counterexample :
    path_included "config/a.txt".data
      [fun p => reMatch inclusionRegexConfig p]
      [fun p => reMatch exclusionRegexTxt p] = true := by
  decide

/-- C3 (amended): with inclusion `["^config/"]` and exclusion `["\.txt$"]`,
the path `"config/a.txt"` passes the inclusion whitelist, but the exclusion
pattern — applied with anchored match-at-start semantics — does not match
it, so the filter returns included. -/
theorem C3_amended_included :
    reMatch inclusionRegexConfig "config/a.txt".data = true ∧
    reMatch exclusionRegexTxt "config/a.txt".data = false ∧
    path_included "config/a.txt".data
      [fun p => reMatch inclusionRegexConfig p]
      [fun p => reMatch exclusionRegexTxt p] = true := by
  refine ⟨by decide, by decide, by decide⟩

/-- C4: for every effective path and every pair of ordered matcher lists,
`path_included` decides inclusion by the fixed precedence stated in the
spec — non-empty inclusion list with no match excludes; otherwise any
matching exclusion pattern excludes; otherwise the path is included — and
in particular with both lists empty every path is included. -/
theorem C4_path_filter_precedence (path : List Char)
    (include_patterns exclude_patterns : List (List Char → Bool)) :
    path_included path include_patterns exclude_patterns =
      path_filter_spec path include_patterns exclude_patterns ∧
    path_included path [] [] = true := by
  constructor
  · unfold path_included path_filter_spec
    have hall : include_patterns.all (fun p => !p path) =
        !include_patterns.any (fun p => p path) := by
      induction include_patterns with
      | nil => rfl
      | cons q qs ih => cases hq : q path <;> simp [List.all_cons, List.any_cons, hq, ih]
    rw [hall]
    cases he : exclude_patterns with
    | nil => simp
    | cons q qs => simp [List.isEmpty]
  · rfl

/-- The run loop of `get_strings_of_set` preserves: the current run's
length equals the counter, and every collected string is longer than the
threshold. -/
theorem gsos_foldl_invariant (char_set : List Char) (threshold : Nat)
    (word : List Char) :
    ∀ st : Nat × List Char × List (List Char),
      st.2.1.length = st.1 → (∀ s ∈ st.2.2, threshold < s.length) →
      (word.foldl (gsosStep char_set threshold) st).2.1.length =
          (word.foldl (gsosStep char_set threshold) st).1 ∧
        ∀ s ∈ (word.foldl (gsosStep char_set threshold) st).2.2,
          threshold < s.length := by
  induction word with
  | nil => exact fun st h1 h2 => ⟨h1, h2⟩
  | cons c w ih =>
    intro st h1 h2
    rw [List.foldl_cons]
    apply ih
    · unfold gsosStep
      split_ifs <;> simp [h1]
    · unfold gsosStep
      split_ifs with hmem hthr
      · simpa using h2
      · intro s hs
        simp only at hs
        rcases List.mem_append.mp hs with h | h
        · exact h2 s h
        · have hs' : s = st.2.1 := by simpa using h
          subst hs'
          omega
      · simpa using h2

/-- C6: the run extractor `get_strings_of_set`, at the fixed threshold 20
its callers use, returns only contiguous runs whose length strictly exceeds
20; a run of length at most 20 is never returned, hence never reported. -/
theorem C6_run_length_exceeds_threshold (word char_set : List Char)
    (s : List Char) (h : s ∈ get_strings_of_set word char_set 20) :
    20 < s.length := by
  simp only [get_strings_of_set] at h
  have hinv := gsos_foldl_invariant char_set 20 word (0, [], []) rfl (by simp)
  have h1 := hinv.1
  set st := word.foldl (gsosStep char_set 20) (0, [], []) with hst
  by_cases hc : 20 < st.1
  · rw [if_pos hc] at h
    rcases List.mem_append.mp h with h' | h'
    · exact hinv.2 s h'
    · have hs' : s = st.2.1 := by simpa using h'
      subst hs'
      omega
  · rw [if_neg hc] at h
    exact hinv.2 s h

/-- Witness for C6 at a concrete input: a run of 21 characters of the set
is returned, and its length exceeds 20. -/
theorem C6_run_length_witness :
    List.replicate 21 'a' ∈
        get_strings_of_set (List.replicate 21 'a') ['a'] 20 ∧
      20 < (List.replicate 21 'a').length :=
  ⟨by decide,
    C6_run_length_exceeds_threshold (List.replicate 21 'a') ['a']
      (List.replicate 21 'a') (by decide)⟩

/-- C10: passing no custom pattern mapping, or an empty one, to
`regex_check` makes it behave exactly as if the built-in default mapping
itself had been supplied: an empty custom mapping is treated as absent, so
supplying one cannot make the pattern detector run with zero patterns. -/
theorem C10_empty_custom_regexes_fall_back (printable_diff commit_time
    branch_name prev_commit_message prev_commit_hexsha : String)
    (blob : Blob)
    (global_regexes : List (String × (String → List String))) :
    regex_check printable_diff commit_time branch_name prev_commit_message
        prev_commit_hexsha blob global_regexes none =
      regex_check printable_diff commit_time branch_name prev_commit_message
        prev_commit_hexsha blob global_regexes (some global_regexes) ∧
    regex_check printable_diff commit_time branch_name prev_commit_message
        prev_commit_hexsha blob global_regexes (some []) =
      regex_check printable_diff commit_time branch_name prev_commit_message
        prev_commit_hexsha blob global_regexes (some global_regexes) := by
  constructor <;> simp [regex_check, ite_self]

/-- C8 (code bug, evaluated at the failing input): on the diff
`"foo SECRETTOKEN bar"` with a single pattern `"MyRule"` whose `findall`
returns the literal `SECRETTOKEN`, the emitted finding's `print_diff` is
only the colour-wrapped matched string — the source's
`printable_diff.replace(printable_diff, ...)` replaces the entire diff text
by the highlighted match — and in particular no longer contains the
surrounding context `"foo"`, contradicting the claim that `print_diff` is
the full diff text with the matches highlighted inside it. -/
theorem C8_print_diff_is_only_the_match :
    (regex_check "foo SECRETTOKEN bar" "2020-01-01 00:00:00" "origin/master"
        "commit message" "abc123"
        ⟨some "a.txt", some "a.txt", "foo SECRETTOKEN bar"⟩ []
        (some [("MyRule",
          fun d => if listContains "SECRETTOKEN".data d.data
                   then ["SECRETTOKEN"] else [])])).map
        (fun f => f.print_diff) =
      [some (bcolorsWARNING ++ "SECRETTOKEN" ++ bcolorsENDC)] ∧
    listContains "foo".data
        (bcolorsWARNING ++ "SECRETTOKEN" ++ bcolorsENDC).data = false := by
  exact ⟨by decide, by decide⟩

/-- C9: for a completed scan the exit status is 0 exactly when zero issues
were found and 1 exactly when at least one was found; a fatal
repository-access error aborts the run with an error message before any
scan result (and hence any exit status of a scan) is produced. -/
theorem C9_exit_contract (outcome : CloneOutcome)
    (stderr_matches_missing : String → Bool)
    (scan : String → List String) :
    (∀ path, outcome = CloneOutcome.success path →
      ((main_result outcome stderr_matches_missing scan = Except.ok 0 ↔
          scan path = []) ∧
        (main_result outcome stderr_matches_missing scan = Except.ok 1 ↔
          scan path ≠ []))) ∧
    (∀ stderr, outcome = CloneOutcome.gitError stderr →
      ∃ msg, main_result outcome stderr_matches_missing scan =
        Except.error msg) := by
  constructor
  · rintro path rfl
    by_cases h : scan path = [] <;>
      simp [main_result, clone_git_repo, main_exit, h]
  · rintro stderr rfl
    simp only [main_result, clone_git_repo]
    by_cases h : stderr_matches_missing stderr = true
    · rw [if_pos h]
      exact ⟨_, rfl⟩
    · rw [if_neg h]
      exact ⟨_, rfl⟩

/-- Witness for C9 at a concrete completed scan with no findings. -/
theorem C9_exit_contract_witness :
    (main_result (CloneOutcome.success "p") (fun _ => false)
          (fun _ => ([] : List String)) = Except.ok 0 ↔
        ([] : List String) = []) ∧
      (main_result (CloneOutcome.success "p") (fun _ => false)
          (fun _ => ([] : List String)) = Except.ok 1 ↔
        ([] : List String) ≠ []) :=
  (C9_exit_contract (CloneOutcome.success "p") (fun _ => false)
      (fun _ => ([] : List String))).1 "p" rfl

/-- Every iteration of the commit loop stores the iterated commit in the
loop variable `curr_commit`. -/
theorem processCommit_curr (since_commit : Option String) (st : WalkSt)
    (c : String) : (processCommit since_commit st c).curr = some c := by
  simp only [processCommit]
  split_ifs <;> rfl

/-- After folding the commit loop, `curr_commit` holds the last iterated
commit, or its previous value when the loop body never ran. -/
theorem foldl_processCommit_curr (since_commit : Option String) :
    ∀ (l : List String) (st : WalkSt),
      (l.foldl (processCommit since_commit) st).curr =
        l.getLast?.or st.curr := by
  intro l
  induction l with
  | nil => intro st; rfl
  | cons c rest ih =>
    intro st
    cases rest with
    | nil =>
      rw [List.foldl_cons, List.foldl_nil, processCommit_curr]
      rfl
    | cons d tl =>
      rw [List.foldl_cons, ih, processCommit_curr, List.getLast?_cons_cons]
      obtain ⟨x, hx⟩ := Option.isSome_iff_exists.mp
        (List.getLast?_isSome.mpr (List.cons_ne_nil d tl))
      rw [hx]
      rfl

/-- One commit-loop iteration either leaves the scan trace unchanged or
appends exactly one in-loop pair scan. -/
theorem processCommit_events (since_commit : Option String) (st : WalkSt)
    (c : String) :
    (processCommit since_commit st c).events = st.events ∨
      (processCommit since_commit st c).events =
        st.events ++ [ScanEvent.pairScan (pyStr st.prev) c] := by
  simp only [processCommit]
  split_ifs <;> simp

/-- The commit loop appends only in-loop pair scans to the trace. -/
theorem foldl_processCommit_events (since_commit : Option String) :
    ∀ (l : List String) (st : WalkSt),
      ∃ mid, (l.foldl (processCommit since_commit) st).events =
          st.events ++ mid ∧
        ∀ e ∈ mid, ∃ p c, e = ScanEvent.pairScan p c := by
  intro l
  induction l with
  | nil => exact fun st => ⟨[], by simp, by simp⟩
  | cons c rest ih =>
    intro st
    rw [List.foldl_cons]
    obtain ⟨mid, hmid, hall⟩ := ih (processCommit since_commit st c)
    rcases processCommit_events since_commit st c with h | h
    · exact ⟨mid, by rw [hmid, h], hall⟩
    · refine ⟨ScanEvent.pairScan (pyStr st.prev) c :: mid, ?_, ?_⟩
      · rw [hmid, h]
        simp
      · intro e he
        rcases List.mem_cons.mp he with rfl | he'
        · exact ⟨_, _, rfl⟩
        · exact hall e he'

/-- C2: for every branch whose commit iteration yields at least one commit
within the depth bound, after exhausting the iteration the walker performs
exactly one additional scan — of the oldest visited commit against the
empty tree — appended after the in-loop pair scans, and it does so
unconditionally: for every `since_commit` configuration, in particular with
the since-commit suppression state active. -/
theorem C2_root_commit_always_scanned (since_commit : Option String)
    (max_depth : Nat) (searched : List String) (events : List ScanEvent)
    (b : Branch) (h : b.commits.take max_depth ≠ []) :
    ∃ searched' mid,
      processBranch since_commit max_depth searched events b =
        some (searched',
          events ++ mid ++
            [ScanEvent.rootScan ((b.commits.take max_depth).getLast h)]) ∧
      ∀ e ∈ mid, ∃ p c, e = ScanEvent.pairScan p c := by
  obtain ⟨mid, hmid, hall⟩ := foldl_processCommit_events since_commit
    (b.commits.take max_depth)
    { sinceReached := false, prev := none, curr := none,
      searched := searched, events := events }
  have hcurr := foldl_processCommit_curr since_commit (b.commits.take max_depth)
    { sinceReached := false, prev := none, curr := none,
      searched := searched, events := events }
  rw [List.getLast?_eq_getLast_of_ne_nil h] at hcurr
  have hcurr2 : ((b.commits.take max_depth).foldl (processCommit since_commit)
      { sinceReached := false, prev := none, curr := none,
        searched := searched, events := events }).curr =
      some ((b.commits.take max_depth).getLast h) := hcurr.trans rfl
  refine ⟨((b.commits.take max_depth).foldl (processCommit since_commit)
      { sinceReached := false, prev := none, curr := none,
        searched := searched, events := events }).searched, mid, ?_, hall⟩
  simp only [processBranch, hcurr2, hmid]

/-- Witness for C2: a branch with one commit, scanned with a truthy
`since_commit` equal to that commit (suppression active from the first
iteration), still receives its terminal empty-tree scan. -/
theorem C2_root_commit_witness :
    ["c1"].take 5 ≠ [] ∧
      ∃ searched' mid,
        processBranch (some "c1") 5 [] [] ⟨"origin/a", ["c1"]⟩ =
          some (searched',
            [] ++ mid ++
              [ScanEvent.rootScan ((["c1"].take 5).getLast (by decide))]) ∧
        ∀ e ∈ mid, ∃ p c, e = ScanEvent.pairScan p c :=
  ⟨by decide, C2_root_commit_always_scanned (some "c1") 5 [] []
      ⟨"origin/a", ["c1"]⟩ (by decide)⟩

/-- C1 (counterexample): with two remote branches pointing at the same
single-commit history, the walker hands the identical terminal
root-versus-empty-tree diff to the detectors twice — once per branch — so
the detectors do not run at most once on that pair of compared identities:
the dedup set never records terminal empty-tree diffs. -/
theorem C1_counterexample :
    ((find_strings_trace [⟨"origin/a", ["c1"]⟩, ⟨"origin/b", ["c1"]⟩]
          none 1000000).getD []).count (ScanEvent.rootScan "c1") = 2 := by
  decide

/-- One commit-loop iteration preserves the dedup invariant: every in-loop
scan's Diff Identity is recorded in `already_searched`, and those
identities are pairwise distinct. -/
theorem processCommit_dedup (since_commit : Option String) (st : WalkSt)
    (c : String)
    (hsub : ∀ x ∈ st.events.filterMap scanEventHash, x ∈ st.searched)
    (hnd : (st.events.filterMap scanEventHash).Nodup) :
    (∀ x ∈ (processCommit since_commit st c).events.filterMap scanEventHash,
        x ∈ (processCommit since_commit st c).searched) ∧
      ((processCommit since_commit st c).events.filterMap
          scanEventHash).Nodup := by
  simp only [processCommit]
  split_ifs with h1 h2 h3
  · exact ⟨hsub, hnd⟩
  · exact ⟨hsub, hnd⟩
  · exact ⟨hsub, hnd⟩
  · constructor
    · intro x hx
      simp only [List.filterMap_append, List.filterMap, scanEventHash] at hx
      rcases List.mem_append.mp hx with hx' | hx'
      · exact List.mem_append.mpr (Or.inl (hsub x hx'))
      · have : x = diff_hash_input st.prev c := by
          simpa [diff_hash_input] using hx'
        subst this
        exact List.mem_append.mpr (Or.inr (by simp))
    · rw [List.filterMap_append]
      rw [List.nodup_append]
      refine ⟨hnd, by simp [scanEventHash], ?_⟩
      intro x hx hx'
      have : x = diff_hash_input st.prev c := by
        simpa [scanEventHash, diff_hash_input] using hx'
      subst this
      exact h3 (hsub _ hx)

/-- The commit loop preserves the dedup invariant. -/
theorem foldl_processCommit_dedup (since_commit : Option String) :
    ∀ (l : List String) (st : WalkSt),
      (∀ x ∈ st.events.filterMap scanEventHash, x ∈ st.searched) →
      (st.events.filterMap scanEventHash).Nodup →
      (∀ x ∈ (l.foldl (processCommit since_commit) st).events.filterMap
          scanEventHash,
        x ∈ (l.foldl (processCommit since_commit) st).searched) ∧
        ((l.foldl (processCommit since_commit) st).events.filterMap
            scanEventHash).Nodup := by
  intro l
  induction l with
  | nil => exact fun st hsub hnd => ⟨hsub, hnd⟩
  | cons c rest ih =>
    intro st hsub hnd
    rw [List.foldl_cons]
    obtain ⟨hsub', hnd'⟩ := processCommit_dedup since_commit st c hsub hnd
    exact ih _ hsub' hnd'

/-- Processing a whole branch preserves the dedup invariant: the terminal
empty-tree scan carries no Diff Identity. -/
theorem processBranch_dedup (since_commit : Option String) (max_depth : Nat)
    (searched : List String) (events : List ScanEvent) (b : Branch)
    (searched' : List String) (events' : List ScanEvent)
    (h : processBranch since_commit max_depth searched events b =
      some (searched', events'))
    (hsub : ∀ x ∈ events.filterMap scanEventHash, x ∈ searched)
    (hnd : (events.filterMap scanEventHash).Nodup) :
    (∀ x ∈ events'.filterMap scanEventHash, x ∈ searched') ∧
      (events'.filterMap scanEventHash).Nodup := by
  simp only [processBranch] at h
  obtain ⟨hsub', hnd'⟩ := foldl_processCommit_dedup since_commit
    (b.commits.take max_depth)
    { sinceReached := false, prev := none, curr := none,
      searched := searched, events := events } hsub hnd
  set st := (b.commits.take max_depth).foldl (processCommit since_commit)
    { sinceReached := false, prev := none, curr := none,
      searched := searched, events := events } with hst
  cases hc : st.curr with
  | none => rw [hc] at h; exact absurd h (by simp)
  | some c =>
    rw [hc] at h
    have h1 : searched' = st.searched := by
      cases h; rfl
    have h2 : events' = st.events ++ [ScanEvent.rootScan c] := by
      cases h; rfl
    subst h1; subst h2
    constructor
    · intro x hx
      apply hsub'
      simpa [List.filterMap_append, scanEventHash] using hx
    · simpa [List.filterMap_append, scanEventHash] using hnd'

/-- The whole branch fold preserves the dedup invariant. -/
theorem runBranches_dedup (since_commit : Option String) (max_depth : Nat) :
    ∀ (branches : List Branch) (searched : List String)
      (events : List ScanEvent) (searched' : List String)
      (events' : List ScanEvent),
      runBranches since_commit max_depth branches searched events =
        some (searched', events') →
      (∀ x ∈ events.filterMap scanEventHash, x ∈ searched) →
      (events.filterMap scanEventHash).Nodup →
      (events'.filterMap scanEventHash).Nodup := by
  intro branches
  induction branches with
  | nil =>
    intro searched events searched' events' h hsub hnd
    unfold runBranches at h
    cases h
    exact hnd
  | cons b bs ih =>
    intro searched events searched' events' h hsub hnd
    unfold runBranches at h
    cases hb : processBranch since_commit max_depth searched events b with
    | none => rw [hb] at h; exact absurd h (by simp)
    | some p =>
      rw [hb] at h
      obtain ⟨hsub', hnd'⟩ := processBranch_dedup since_commit max_depth
        searched events b p.1 p.2 (by rw [hb]) hsub hnd
      exact ih p.1 p.2 searched' events' h hsub' hnd'

/-- C1 (amended): within a single scan session the at-most-once guarantee
holds for all in-loop consecutive-commit-pair diffs — the walker never
computes and scans an in-loop diff whose Diff Identity was already recorded
as seen, so the Diff Identities of the in-loop scans in any completed trace
are pairwise distinct. The guarantee does not extend to the terminal
root-commit-versus-empty-tree scan, which is performed once per branch
without consulting or updating the seen set. -/
theorem C1_inloop_scans_never_repeat_identity (branches : List Branch)
    (since_commit : Option String) (max_depth : Nat) (evs : List ScanEvent)
    (h : find_strings_trace branches since_commit max_depth = some evs) :
    (evs.filterMap scanEventHash).Nodup := by
  unfold find_strings_trace at h
  cases hrun : runBranches since_commit max_depth branches [] [] with
  | none => rw [hrun] at h; exact absurd h (by simp)
  | some p =>
    rw [hrun] at h
    have hevs : p.2 = evs := by
      simpa using h
    subst hevs
    exact runBranches_dedup since_commit max_depth branches [] [] p.1 p.2
      (by rw [hrun]) (by simp) (by simp)

/-- Witness for C1 (amended) on a concrete two-commit branch: the trace
completes and its in-loop Diff Identities are pairwise distinct. -/
theorem C1_inloop_dedup_witness :
    find_strings_trace [⟨"origin/a", ["c2", "c1"]⟩] none 1000000 =
        some [ScanEvent.pairScan "c2" "c1", ScanEvent.rootScan "c1"] ∧
      (([ScanEvent.pairScan "c2" "c1",
          ScanEvent.rootScan "c1"]).filterMap scanEventHash).Nodup :=
  ⟨by decide,
    C1_inloop_scans_never_repeat_identity [⟨"origin/a", ["c2", "c1"]⟩]
      none 1000000 [ScanEvent.pairScan "c2" "c1", ScanEvent.rootScan "c1"]
      (by decide)⟩

/-- Every summand of `shannon_entropy` is nonnegative: probabilities lie in
`[0, 1]`, where `log2` is nonpositive. -/
theorem entropyTerm_nonneg (data : List Char) (x : Char) :
    0 ≤ entropyTerm data x := by
  unfold entropyTerm
  split_ifs with hp
  · have hle1 : (data.count x : ℝ) / (data.length : ℝ) ≤ 1 := by
      rcases Nat.eq_zero_or_pos data.length with h0 | hpos
      · simp [h0]
      · rw [div_le_one (by exact_mod_cast hpos)]
        exact_mod_cast data.count_le_length x
    have hlog : Real.logb 2 ((data.count x : ℝ) / (data.length : ℝ)) ≤ 0 :=
      Real.logb_nonpos (by norm_num) hp.le hle1
    nlinarith
  · exact le_refl 0

/-- The Shannon entropy the source computes is nonnegative for every input
and every alphabet. -/
theorem shannon_entropy_nonneg (data iterator : List Char) :
    0 ≤ shannon_entropy data iterator := by
  unfold shannon_entropy
  split_ifs with h
  · exact le_refl 0
  · apply List.sum_nonneg
    intro t ht
    obtain ⟨x, _, rfl⟩ := List.mem_map.mp ht
    exact entropyTerm_nonneg data x

/-- Over any finite set of characters, the per-character occurrence counts
within `data` sum to at most its length. -/
theorem sum_count_le_length (A : Finset Char) (data : List Char) :
    (∑ x ∈ A, data.count x) ≤ data.length := by
  induction data with
  | nil => simp
  | cons c d ih =>
    have hxc : ∀ x ∈ A, (c :: d).count x = d.count x + if c = x then 1 else 0 := by
      intro x _
      rw [List.count_cons]
      congr 1
      by_cases h : c = x <;> simp [h]
    rw [Finset.sum_congr rfl hxc, Finset.sum_add_distrib]
    have hone : (∑ x ∈ A, if c = x then 1 else 0) ≤ 1 := by
      rw [Finset.sum_ite_eq A c (fun _ => 1)]
      split_ifs <;> norm_num
    simp only [List.length_cons]
    omega

/-- Pointwise Gibbs-style bound: for `0 ≤ p` and an alphabet size `n ≥ 3`,
the entropy summand `-p·log2 p` is at most
`p·log2 n + (1/n - p)/ln 2`, via `log x ≤ x - 1`. -/
theorem entropy_term_le (p n : ℝ) (hp0 : 0 ≤ p) (hn : 3 ≤ n) :
    (if (0 : ℝ) < p then -(p * Real.logb 2 p) else 0) ≤
      p * Real.logb 2 n + (n⁻¹ - p) * (Real.log 2)⁻¹ := by
  have hn0 : (0 : ℝ) < n := by linarith
  have hlog2 : (0 : ℝ) < Real.log 2 := Real.log_pos (by norm_num)
  by_cases hp : (0 : ℝ) < p
  · rw [if_pos hp]
    have hkey : Real.log ((p * n)⁻¹) ≤ (p * n)⁻¹ - 1 :=
      Real.log_le_sub_one_of_pos (by positivity)
    have hlinv : Real.log ((p * n)⁻¹) = -(Real.log p + Real.log n) := by
      rw [Real.log_inv, Real.log_mul (ne_of_gt hp) (ne_of_gt hn0)]
    have hpinv : p * (p * n)⁻¹ = n⁻¹ := by
      field_simp
    have hcore : -(p * Real.log p) ≤ p * Real.log n + (n⁻¹ - p) := by
      have h1 : p * Real.log ((p * n)⁻¹) ≤ p * ((p * n)⁻¹ - 1) :=
        mul_le_mul_of_nonneg_left hkey hp0
      rw [hlinv, mul_sub, hpinv] at h1
      nlinarith [h1]
    rw [← Real.log_div_log, ← Real.log_div_log, div_eq_mul_inv, div_eq_mul_inv]
    have hc0 : (0 : ℝ) ≤ (Real.log 2)⁻¹ := (inv_pos.mpr hlog2).le
    nlinarith [mul_le_mul_of_nonneg_right hcore hc0]
  · rw [if_neg hp]
    have hp0' : p = 0 := le_antisymm (not_lt.mp hp) hp0
    subst hp0'
    have h1 : (0 : ℝ) ≤ n⁻¹ * (Real.log 2)⁻¹ :=
      mul_nonneg (inv_nonneg.mpr hn0.le) (inv_nonneg.mpr hlog2.le)
    nlinarith [h1]

/-- Closing arithmetic step of the entropy bound. -/
theorem entropy_sum_bound (s L c : ℝ) (hs : s ≤ 1) (hcL : c ≤ L) :
    s * L + (1 - s) * c ≤ L := by
  nlinarith

/-- The entropy upper bound for a duplicate-free alphabet of at least three
characters: summing the termwise Gibbs bound gives
`H ≤ s·log2 n + (1 - s)/ln 2 ≤ log2 n`, where `s ≤ 1` is the probability
mass the alphabet captures inside `data`. -/
theorem shannon_entropy_le_logb (data alpha : List Char) (hnd : alpha.Nodup)
    (h3 : 3 ≤ alpha.length) :
    shannon_entropy data alpha ≤ Real.logb 2 (alpha.length : ℝ) := by
  have hnR : (3 : ℝ) ≤ (alpha.length : ℝ) := by exact_mod_cast h3
  have hn0 : (0 : ℝ) < (alpha.length : ℝ) := by linarith
  have hLnonneg : 0 ≤ Real.logb 2 (alpha.length : ℝ) :=
    Real.logb_nonneg (by norm_num) (by linarith)
  have hlog2 : (0 : ℝ) < Real.log 2 := Real.log_pos (by norm_num)
  unfold shannon_entropy
  split_ifs with hemp
  · exact hLnonneg
  have hlen : 0 < data.length := by
    cases data with
    | nil => simp at hemp
    | cons c d => simp
  have hlenR : (0 : ℝ) < (data.length : ℝ) := by exact_mod_cast hlen
  rw [← List.sum_toFinset _ hnd]
  have hterm : ∀ x ∈ alpha.toFinset, entropyTerm data x ≤
      ((data.count x : ℝ) / (data.length : ℝ)) *
          Real.logb 2 (alpha.length : ℝ) +
        ((alpha.length : ℝ)⁻¹ - (data.count x : ℝ) / (data.length : ℝ)) *
          (Real.log 2)⁻¹ := by
    intro x _
    unfold entropyTerm
    exact entropy_term_le _ _ (by positivity) hnR
  have hb := Finset.sum_le_sum hterm
  have hmass : (∑ x ∈ alpha.toFinset,
      (data.count x : ℝ) / (data.length : ℝ)) ≤ 1 := by
    rw [← Finset.sum_div, div_le_one hlenR]
    exact_mod_cast sum_count_le_length alpha.toFinset data
  have hrhs : (∑ x ∈ alpha.toFinset,
      (((data.count x : ℝ) / (data.length : ℝ)) *
          Real.logb 2 (alpha.length : ℝ) +
        ((alpha.length : ℝ)⁻¹ - (data.count x : ℝ) / (data.length : ℝ)) *
          (Real.log 2)⁻¹)) =
      (∑ x ∈ alpha.toFinset, (data.count x : ℝ) / (data.length : ℝ)) *
          Real.logb 2 (alpha.length : ℝ) +
        (1 - (∑ x ∈ alpha.toFinset,
            (data.count x : ℝ) / (data.length : ℝ))) * (Real.log 2)⁻¹ := by
    rw [Finset.sum_add_distrib, ← Finset.sum_mul, ← Finset.sum_mul,
      Finset.sum_sub_distrib, Finset.sum_const, nsmul_eq_mul,
      List.toFinset_card_of_nodup hnd, mul_inv_cancel₀ (ne_of_gt hn0)]
  have hcL : (Real.log 2)⁻¹ ≤ Real.logb 2 (alpha.length : ℝ) := by
    rw [← Real.log_div_log, div_eq_mul_inv]
    have h1le : (1 : ℝ) ≤ Real.log (alpha.length : ℝ) := by
      rw [Real.le_log_iff_exp_le hn0]
      have hexp := Real.exp_one_lt_d9
      linarith
    nlinarith [mul_le_mul_of_nonneg_right h1le (inv_pos.mpr hlog2).le]
  calc (∑ x ∈ alpha.toFinset, entropyTerm data x)
      ≤ (∑ x ∈ alpha.toFinset, (data.count x : ℝ) / (data.length : ℝ)) *
            Real.logb 2 (alpha.length : ℝ) +
          (1 - (∑ x ∈ alpha.toFinset,
              (data.count x : ℝ) / (data.length : ℝ))) * (Real.log 2)⁻¹ := by
        rw [← hrhs]
        exact hb
    _ ≤ Real.logb 2 (alpha.length : ℝ) := entropy_sum_bound _ _ _ hmass hcL

/-- C5: for every text input, the Shannon entropy the detector computes
over each of its two fixed alphabets is nonnegative and at most `log2` of
that alphabet's size (65 base64 symbols, 22 hex symbols). -/
theorem C5_shannon_entropy_bounds (data : List Char) :
    (0 ≤ shannon_entropy data BASE64_CHARS ∧
      shannon_entropy data BASE64_CHARS ≤
        Real.logb 2 (BASE64_CHARS.length : ℝ)) ∧
    (0 ≤ shannon_entropy data HEX_CHARS ∧
      shannon_entropy data HEX_CHARS ≤
        Real.logb 2 (HEX_CHARS.length : ℝ)) :=
  ⟨⟨shannon_entropy_nonneg data BASE64_CHARS,
      shannon_entropy_le_logb data BASE64_CHARS (by decide) (by decide)⟩,
    ⟨shannon_entropy_nonneg data HEX_CHARS,
      shannon_entropy_le_logb data HEX_CHARS (by decide) (by decide)⟩⟩

/-- Folding a conditional-append step collects the filtered elements. -/
theorem foldl_ite_append {α : Type} (p : α → Prop) [DecidablePred p] :
    ∀ (l : List α) (acc : List α),
      l.foldl (fun a x => if p x then a ++ [x] else a) acc =
        acc ++ l.filter (fun x => decide (p x)) := by
  intro l
  induction l with
  | nil => intro acc; simp
  | cons x xs ih =>
    intro acc
    by_cases h : p x <;>
      simp [h, ih, List.filter_cons, List.append_assoc]

/-- Folding an append-only step collects the flat-mapped chunks. -/
theorem foldl_append_flatMap {α β : Type} (g : α → List β) :
    ∀ (l : List α) (acc : List β),
      l.foldl (fun a x => a ++ g x) acc = acc ++ l.flatMap g := by
  intro l
  induction l with
  | nil => intro acc; simp
  | cons x xs ih => intro acc; simp [ih, List.append_assoc]

/-- Folding a skip-or-append step collects the chunks of the kept
elements. -/
theorem foldl_skip_append {α β : Type} (q : α → Bool) (g : α → List β) :
    ∀ (l : List α) (acc : List β),
      l.foldl (fun a x => if q x then a else a ++ g x) acc =
        acc ++ (l.filter (fun x => !q x)).flatMap g := by
  intro l
  induction l with
  | nil => intro acc; simp
  | cons x xs ih =>
    intro acc
    cases h : q x <;>
      simp [h, ih, List.filter_cons, List.append_assoc]

/-- The per-line step of `find_entropy_strings` either skips a suppressed
line unchanged or appends exactly that line's flagged entropy strings. -/
theorem find_entropy_step
    (entropy_regex_exclusions : List (List Char → Bool))
    (acc : List (List Char)) (line : List Char) :
    (if is_exclude_line line entropy_regex_exclusions then acc
     else
       (pySplitWords line).foldl (fun sf word =>
         let sf2 := (get_strings_of_set word BASE64_CHARS 20).foldl
           (fun acc s =>
             if (4.5 : ℝ) < shannon_entropy s BASE64_CHARS then acc ++ [s]
             else acc) sf
         (get_strings_of_set word HEX_CHARS 20).foldl
           (fun acc s =>
             if (3 : ℝ) < shannon_entropy s HEX_CHARS then acc ++ [s]
             else acc) sf2) acc) =
      if is_exclude_line line entropy_regex_exclusions then acc
      else acc ++ line_entropy_strings line := by
  cases h : is_exclude_line line entropy_regex_exclusions
  · simp only [h, Bool.false_eq_true, if_false]
    unfold line_entropy_strings
    refine (List.foldl_ext _
      (fun sf word => sf ++
        ((get_strings_of_set word BASE64_CHARS 20).filter
            (fun s => decide ((4.5 : ℝ) < shannon_entropy s BASE64_CHARS)) ++
          (get_strings_of_set word HEX_CHARS 20).filter
            (fun s => decide ((3 : ℝ) < shannon_entropy s HEX_CHARS)))) acc
      ?_).trans (foldl_append_flatMap _ _ _)
    intro sf word _
    have h1 := foldl_ite_append
      (fun s => (4.5 : ℝ) < shannon_entropy s BASE64_CHARS)
      (get_strings_of_set word BASE64_CHARS 20) sf
    have h2 := foldl_ite_append
      (fun s => (3 : ℝ) < shannon_entropy s HEX_CHARS)
      (get_strings_of_set word HEX_CHARS 20)
      ((get_strings_of_set word BASE64_CHARS 20).foldl
        (fun acc s =>
          if (4.5 : ℝ) < shannon_entropy s BASE64_CHARS then acc ++ [s]
          else acc) sf)
    exact h2.trans (by rw [h1, List.append_assoc])
  · simp only [h, if_true]

/-- C7: for every diff text and every set of line-level exclusion matchers,
the entropy detector's collected strings are exactly those of the
non-suppressed lines: a physical line containing the fixed marker
`no_trufflehog`, or matched by a caller-supplied exclusion pattern, is
skipped entirely and contributes no entropy finding, whatever the entropy
of its strings. -/
theorem C7_suppressed_lines_yield_nothing (printable_diff : List Char)
    (entropy_regex_exclusions : List (List Char → Bool)) :
    find_entropy_strings printable_diff entropy_regex_exclusions =
      ((splitLines printable_diff).filter
          (fun l => !is_exclude_line l entropy_regex_exclusions)).flatMap
        line_entropy_strings := by
  unfold find_entropy_strings
  refine (List.foldl_ext _
    (fun acc line =>
      if is_exclude_line line entropy_regex_exclusions then acc
      else acc ++ line_entropy_strings line) [] ?_).trans
    ((foldl_skip_append _ _ _ _).trans (List.nil_append _))
  intro acc line _
  exact find_entropy_step entropy_regex_exclusions acc line

end TruffleHog
